import Mathlib

/-!
Shallow embedding of `src/sql_runner.py` (class `SQLQueryRunner`).

Python strings are modelled as `List Char`; the database client and the
filesystem are modelled as explicit environments supplying the outcome of
each external call, and the observable behaviour of the runner (log calls,
statement executions, commits, reads, process exit) is collected in an
event trace.  `sys.exit(1)` is modelled as the value `some 1` of the
returned exit component; a normal return of `run_all_queries` is `none`
(the process then ends with status 0).
-/

/-- ASCII whitespace, modelling the character class stripped by Python
`str.strip()` (the repository's SQL files are ASCII text). -/
def pyIsSpace (c : Char) : Bool :=
  c = ' ' || c = '\t' || c = '\n' || c = '\r' || c = '\x0b' || c = '\x0c'

/-- Python `s.strip()`: drop leading and trailing whitespace. -/
def pyStrip (s : List Char) : List Char :=
  ((s.dropWhile pyIsSpace).reverse.dropWhile pyIsSpace).reverse

/-- Python `s.lower()` (ASCII case mapping). -/
def pyLower (s : List Char) : List Char :=
  s.map Char.toLower

/-- Python `s.endswith(suffix)`. -/
def pyEndsWith (s suffix : List Char) : Bool :=
  suffix.isSuffixOf s

/-- Auxiliary for `splitOnChar`: `acc` holds the current fragment reversed. -/
def splitAux (c : Char) : List Char → List Char → List (List Char)
  | [], acc => [acc.reverse]
  | x :: xs, acc =>
    if x = c then acc.reverse :: splitAux c xs [] else splitAux c xs (x :: acc)

/-- Python `s.split(sep)` for a one-character separator `c`:
every occurrence of `c` ends a fragment, empty fragments are kept. -/
def splitOnChar (c : Char) (s : List Char) : List (List Char) :=
  splitAux c s []

/-- Joining fragments with the separator character `c`; the left inverse of
`splitOnChar c`. -/
def joinChar (c : Char) : List (List Char) → List Char
  | [] => []
  | [x] => x
  | x :: xs => x ++ c :: joinChar c xs

/-- `os.path.join(a, b)` for POSIX paths (the two-argument form used in
`get_sql_files`). -/
def pathJoin (a b : List Char) : List Char :=
  if b.head? = some '/' then b
  else if a = [] ∨ a.getLast? = some '/' then a ++ b
  else a ++ '/' :: b

/-- `os.path.basename(p)` for POSIX paths: everything after the last `/`. -/
def basename (p : List Char) : List Char :=
  (splitOnChar '/' p).getLastD []

/-- Lexicographic comparison of strings by code point, as Python's `<=` on
`str`; `sorted` orders by this relation. -/
def lexLe : List Char → List Char → Bool
  | [], _ => true
  | _ :: _, [] => false
  | a :: as, b :: bs => if a < b then true else if a = b then lexLe as bs else false

/-- The ordering used by Python `sorted` on strings, as a `Prop` relation. -/
def lexR (x y : List Char) : Prop := lexLe x y = true

instance : DecidableRel lexR := fun x y => inferInstanceAs (Decidable (lexLe x y = true))

/-- `SQLQueryRunner.get_sql_files`: collect the entries of the directory
whose name ends with `.sql`, join each with the directory path, and sort.
The directory listing is the explicit argument `entries` (the order
`os.listdir` returns is arbitrary, so it is universally quantified). -/
def get_sql_files (directory : List Char) (entries : List (List Char)) : List (List Char) :=
  List.insertionSort lexR
    ((entries.filter (fun f => pyEndsWith f ".sql".toList)).map (pathJoin directory))

/-- Lines 50–51 of `execute_query`: split the query on `;`, strip each
fragment, keep the non-empty ones (the comprehension filters on the
stripped fragment and yields the stripped fragment). -/
def splitStatements (query : List Char) : List (List Char) :=
  ((splitOnChar ';' query).filter (fun stmt => !(pyStrip stmt).isEmpty)).map pyStrip

/-- Line 58: `statement.lower().strip().startswith('select')`. -/
def isSelectStmt (statement : List Char) : Bool :=
  "select".toList.isPrefixOf (pyStrip (pyLower statement))

/-- Observable events of one run.  `execCall` marks an invocation of
`execute_query`, `connect` an attempt to open a database connection,
`readFile` an attempt to read a file; the `log…` events are the runner's
log calls, with their string arguments. -/
inductive Ev where
  | execCall (name : List Char)
  | connect
  | logExecuting (name : List Char)
  | execStmt (statement : List Char)
  | fetch (rows : List (List Char))
  | logRow (row : List Char)
  | commit
  | logSuccess (name : List Char)
  | logErrorExec (name msg : List Char)
  | readFile (path : List Char)
  | logErrorRead (path msg : List Char)
  | logErrorFatal (path msg : List Char)
  | logErrorStop (path : List Char)
  | logWarnNoFiles
  | logFoundCount (n : Nat)
deriving DecidableEq, Repr

/-- The external database client (`mysql.connector`), an opaque collaborator:
`connect` yields a connection state or fails, `execStmt` runs one statement
on a state yielding the next state and the result set `fetchall` would
return, `commit` commits.  Every failure is an error message. -/
structure DBEnv (σ : Type) where
  connect : Except (List Char) σ
  execStmt : σ → List Char → Except (List Char) (σ × List (List Char))
  commit : σ → Except (List Char) σ

/-- Lines 53–61 of `execute_query`: the statement loop.  Returns the events
it emits and either the state after all statements or the first error.
A raised error stops the loop at once (the surrounding `try` transfers
control to the handler). -/
def runStmts {σ : Type} (db : DBEnv σ) : σ → List (List Char) → List Ev × Except (List Char) σ
  | s, [] => ([], .ok s)
  | s, stmt :: rest =>
    if stmt.isEmpty then runStmts db s rest
    else
      match db.execStmt s stmt with
      | .error e => ([Ev.execStmt stmt], .error e)
      | .ok (s', rows) =>
        let evs := Ev.execStmt stmt ::
          (if isSelectStmt stmt then Ev.fetch rows :: rows.map Ev.logRow else [])
        let cont := runStmts db s' rest
        (evs ++ cont.1, cont.2)

/-- `SQLQueryRunner.execute_query` (lines 42–68): connect, log the start,
split the query, run the statements, commit, and return `true`; any raised
error is caught by the broad `except Exception` handler, logged with the
file name, and turned into the return value `false`. -/
def execute_query {σ : Type} (db : DBEnv σ) (query : List Char) (file_name : List Char) :
    List Ev × Bool :=
  match db.connect with
  | .error e => ([Ev.execCall file_name, Ev.connect, Ev.logErrorExec file_name e], false)
  | .ok s0 =>
    let stmts := splitStatements query
    let run := runStmts db s0 stmts
    match run.2 with
    | .error e =>
      (Ev.execCall file_name :: Ev.connect :: Ev.logExecuting file_name ::
        run.1 ++ [Ev.logErrorExec file_name e], false)
    | .ok sEnd =>
      match db.commit sEnd with
      | .error e =>
        (Ev.execCall file_name :: Ev.connect :: Ev.logExecuting file_name ::
          run.1 ++ [Ev.commit, Ev.logErrorExec file_name e], false)
      | .ok _ =>
        (Ev.execCall file_name :: Ev.connect :: Ev.logExecuting file_name ::
          run.1 ++ [Ev.commit, Ev.logSuccess file_name], true)

/-- The world a batch runs in: the filesystem (`read` gives each file's
contents or the I/O error raised) and the database client. -/
structure World (σ : Type) where
  read : List Char → Except (List Char) (List Char)
  db : DBEnv σ

/-- `SQLQueryRunner.read_query_from_file` (lines 33–40): return the file's
text; on any error, log the path and message and re-raise the same error. -/
def read_query_from_file {σ : Type} (w : World σ) (file_path : List Char) :
    List Ev × Except (List Char) (List Char) :=
  match w.read file_path with
  | .ok text => ([Ev.readFile file_path], .ok text)
  | .error e => ([Ev.readFile file_path, Ev.logErrorRead file_path e], .error e)

/-- Lines 80–91: the per-file loop of `run_all_queries`.  A read error is
re-raised, caught by `except Exception`, logged, and the process exits with
status 1 (`sys.exit(1)` raises `SystemExit`, which `except Exception` does
not catch); an execution failure is logged and also exits with status 1. -/
def runFiles {σ : Type} (w : World σ) : List (List Char) → List Ev × Option Nat
  | [] => ([], none)
  | f :: rest =>
    match read_query_from_file w f with
    | (evs, .error e) => (evs ++ [Ev.logErrorFatal f e], some 1)
    | (evs, .ok query) =>
      let exec := execute_query w.db query (basename f)
      if exec.2 then
        let recRest := runFiles w rest
        (evs ++ exec.1 ++ recRest.1, recRest.2)
      else
        (evs ++ exec.1 ++ [Ev.logErrorStop f], some 1)

/-- `SQLQueryRunner.run_all_queries` (lines 70–91): discover the files; if
none, warn and return (the process then exits with status 0, modelled as
`none`); otherwise log the count and process the files in order. -/
def run_all_queries {σ : Type} (w : World σ) (directory : List Char)
    (entries : List (List Char)) : List Ev × Option Nat :=
  let sql_files := get_sql_files directory entries
  if sql_files.isEmpty then ([Ev.logWarnNoFiles], none)
  else
    let run := runFiles w sql_files
    (Ev.logFoundCount sql_files.length :: run.1, run.2)

/-- Modelled from the spec (section 4.1, for the refinement claim): the
sorted sequence of `.sql` entry names of the directory, each joined to the
directory path — sorting the names, where the code sorts the joined paths. -/
def getSqlFilesSpec (directory : List Char) (entries : List (List Char)) : List (List Char) :=
  (List.insertionSort lexR (entries.filter (fun f => pyEndsWith f ".sql".toList))).map
    (pathJoin directory)

/-- The paths whose read was attempted, in trace order. -/
def readsOf (t : List Ev) : List (List Char) :=
  t.filterMap fun e => match e with | .readFile p => some p | _ => none

/-- The display names `execute_query` was invoked with, in trace order. -/
def execCallsOf (t : List Ev) : List (List Char) :=
  t.filterMap fun e => match e with | .execCall n => some n | _ => none

/-- The events lines 57–61 emit after a successfully executed statement:
for a SELECT, the fetch of all rows followed by one log entry per row;
nothing otherwise. -/
def selectBlock (statement : List Char) (rows : List (List Char)) : List Ev :=
  if isSelectStmt statement then Ev.fetch rows :: rows.map Ev.logRow else []

/-- The statements executed in a trace, in order. -/
def execStmtsOf (t : List Ev) : List (List Char) :=
  t.filterMap fun e => match e with | .execStmt s => some s | _ => none

/-- A file on which the per-file step of `run_all_queries` succeeds: its
read returns text whose execution reports `true`. -/
def fileOk {σ : Type} (w : World σ) (f : List Char) : Prop :=
  ∃ q, w.read f = .ok q ∧ (execute_query w.db q (basename f)).2 = true

/-- A database client on which everything succeeds and every statement has
the single result row `row1`; used for closed instantiations. -/
def dbOk : DBEnv Unit where
  connect := .ok ()
  execStmt := fun s _ => .ok (s, ["row1".toList])
  commit := fun s => .ok s

/-- A database client whose connection attempt fails. -/
def dbConnFail : DBEnv Unit where
  connect := .error "connection refused".toList
  execStmt := fun s _ => .ok (s, [])
  commit := fun s => .ok s

/-- A database client on which exactly the statement `BAD` raises. -/
def dbFailOnBad : DBEnv Unit where
  connect := .ok ()
  execStmt := fun s stmt =>
    if stmt = "BAD".toList then .error "syntax error".toList else .ok (s, [])
  commit := fun s => .ok s

/-- A world whose every file read raises. -/
def wReadFail : World Unit where
  read := fun _ => .error "permission denied".toList
  db := dbOk

/-- A world for a three-file batch in which the file `d/b.sql` holds the
failing statement `BAD` and every other file holds a harmless statement. -/
def wBatch : World Unit where
  read := fun p => if p = "d/b.sql".toList then .ok "BAD".toList else .ok "OK".toList
  db := dbFailOnBad

theorem splitAux_ne_nil (c : Char) (l acc : List Char) : splitAux c l acc ≠ [] := by
  induction l generalizing acc with
  | nil => simp [splitAux]
  | cons x xs ih =>
    simp only [splitAux]
    split
    · simp
    · exact ih _

theorem joinChar_cons (c : Char) (x : List Char) (xs : List (List Char)) (h : xs ≠ []) :
    joinChar c (x :: xs) = x ++ c :: joinChar c xs := by
  cases xs with
  | nil => exact absurd rfl h
  | cons y ys => rfl

theorem joinChar_splitAux (c : Char) (l acc : List Char) :
    joinChar c (splitAux c l acc) = acc.reverse ++ l := by
  induction l generalizing acc with
  | nil => simp [splitAux, joinChar]
  | cons x xs ih =>
    simp only [splitAux]
    split
    · rename_i hx
      rw [joinChar_cons c _ _ (splitAux_ne_nil c xs []), ih []]
      simp [hx]
    · rw [ih (x :: acc)]
      simp

/-- Splitting is a genuine decomposition: joining the fragments with the
separator restores the input. -/
theorem joinChar_splitOnChar (c : Char) (l : List Char) :
    joinChar c (splitOnChar c l) = l := by
  simpa using joinChar_splitAux c l []

theorem splitAux_not_mem (c : Char) (l acc : List Char) (hacc : c ∉ acc) :
    ∀ f ∈ splitAux c l acc, c ∉ f := by
  induction l generalizing acc with
  | nil =>
    simp only [splitAux, List.mem_singleton]
    rintro f rfl
    simpa using hacc
  | cons x xs ih =>
    simp only [splitAux]
    split
    · intro f hf
      rcases List.mem_cons.mp hf with rfl | hf
      · simpa using hacc
      · exact ih [] (by simp) f hf
    · rename_i hx
      refine ih (x :: acc) ?_
      simp only [List.mem_cons, not_or]
      exact ⟨fun h => hx h.symm, hacc⟩

/-- No fragment produced by the splitter contains the separator. -/
theorem splitOnChar_not_mem (c : Char) (l : List Char) :
    ∀ f ∈ splitOnChar c l, c ∉ f :=
  splitAux_not_mem c l [] (by simp)

theorem lexLe_total : ∀ x y : List Char, lexLe x y = true ∨ lexLe y x = true
  | [], _ => Or.inl rfl
  | _ :: _, [] => Or.inr rfl
  | a :: as, b :: bs => by
    rcases lt_trichotomy a b with h | h | h
    · left; simp [lexLe, h]
    · subst h
      rcases lexLe_total as bs with ih | ih
      · left; simp [lexLe, lt_irrefl, ih]
      · right; simp [lexLe, lt_irrefl, ih]
    · right; simp [lexLe, h]

theorem lexLe_trans : ∀ x y z : List Char,
    lexLe x y = true → lexLe y z = true → lexLe x z = true
  | [], _, _, _, _ => rfl
  | _ :: _, [], _, h, _ => by simp [lexLe] at h
  | _ :: _, _ :: _, [], _, h => by simp [lexLe] at h
  | a :: as, b :: bs, c :: cs, h1, h2 => by
    simp only [lexLe] at h1 h2 ⊢
    rcases lt_trichotomy a b with hab | hab | hab
    · rcases lt_trichotomy b c with hbc | hbc | hbc
      · simp [lt_trans hab hbc]
      · subst hbc; simp [hab]
      · rw [if_neg (asymm hbc), if_neg (ne_of_gt hbc)] at h2; simp at h2
    · subst hab
      rcases lt_trichotomy a c with hac | hac | hac
      · simp [hac]
      · subst hac
        rw [if_neg (lt_irrefl a), if_pos rfl] at h1 h2 ⊢
        exact lexLe_trans as bs cs h1 h2
      · rw [if_neg (asymm hac), if_neg (ne_of_gt hac)] at h2; simp at h2
    · rw [if_neg (asymm hab), if_neg (ne_of_gt hab)] at h1; simp at h1

instance : IsTotal (List Char) lexR := ⟨fun x y => lexLe_total x y⟩

instance : IsTrans (List Char) lexR := ⟨fun x y z => lexLe_trans x y z⟩

/-- Prepending a common prefix does not change the comparison. -/
theorem lexLe_append_left (j : List Char) (u v : List Char) :
    lexLe (j ++ u) (j ++ v) = lexLe u v := by
  induction j with
  | nil => rfl
  | cons c j ih => simp [lexLe, lt_irrefl, ih]

/-- The part `os.path.join` puts before the second argument: the directory,
with a `/` appended unless it is empty or already ends in `/`. -/
def joinedDirPart (a : List Char) : List Char :=
  if a = [] ∨ a.getLast? = some '/' then a else a ++ ['/']

theorem pathJoin_eq_append (a b : List Char) (hb : b.head? ≠ some '/') :
    pathJoin a b = joinedDirPart a ++ b := by
  unfold pathJoin joinedDirPart
  rw [if_neg hb]
  split
  · rfl
  · simp

theorem filter_strip_map (l : List (List Char)) :
    (l.filter (fun s => !(pyStrip s).isEmpty)).map pyStrip =
      (l.map pyStrip).filter (fun s => !s.isEmpty) := by
  induction l with
  | nil => rfl
  | cons x xs ih => by_cases h : (pyStrip x).isEmpty <;> simp [List.filter_cons, h, ih]

theorem mem_splitStatements_ne_nil (q : List Char) :
    ∀ st ∈ splitStatements q, st ≠ [] := by
  intro st hst
  simp only [splitStatements, List.mem_map, List.mem_filter] at hst
  obtain ⟨x, ⟨-, hx⟩, rfl⟩ := hst
  simpa [List.isEmpty_iff] using hx

/-- C3: the statement splitter splits the text on the literal `;` (joining
the fragments with `;` restores the text and no fragment contains `;`),
trims each fragment, and keeps exactly the fragments that are non-empty
after trimming, in their original left-to-right order; on the spec's
example text it yields exactly the two expected statements. -/
theorem stmtSplitter_C3 (q : List Char) :
    joinChar ';' (splitOnChar ';' q) = q ∧
    (∀ f ∈ splitOnChar ';' q, ';' ∉ f) ∧
    splitStatements q = ((splitOnChar ';' q).map pyStrip).filter (fun s => !s.isEmpty) ∧
    splitStatements "INSERT INTO t VALUES (1);  \n SELECT * FROM t; ".toList =
      ["INSERT INTO t VALUES (1)".toList, "SELECT * FROM t".toList] :=
  ⟨joinChar_splitOnChar ';' q, splitOnChar_not_mem ';' q, filter_strip_map _, by decide⟩

/-- Witness for C3 at a concrete fragment of a concrete input. -/
theorem stmtSplitter_C3_witness : (';' : Char) ∉ "ab".toList :=
  (stmtSplitter_C3 "ab;c".toList).2.1 "ab".toList (by decide)

/-- C2: discovery returns exactly the joined paths of the directory entries
whose name ends in `.sql` (case-sensitive), sorted lexicographically, and
behaves as the spec's two examples require.  Only the given directory's own
entries are considered (the embedding of `os.listdir` supplies exactly
them, with no recursion). -/
theorem discovery_C2 (directory : List Char) (entries : List (List Char)) :
    List.Sorted lexR (get_sql_files directory entries) ∧
    List.Perm (get_sql_files directory entries)
      ((entries.filter (fun f => pyEndsWith f ".sql".toList)).map (pathJoin directory)) ∧
    (∀ p, p ∈ get_sql_files directory entries ↔
      ∃ f, f ∈ entries ∧ pyEndsWith f ".sql".toList = true ∧ p = pathJoin directory f) ∧
    get_sql_files "d".toList ["a.sql".toList, "c.sql".toList, "b.sql".toList] =
      ["d/a.sql".toList, "d/b.sql".toList, "d/c.sql".toList] ∧
    get_sql_files "d".toList ["a.sql".toList, "b.SQL".toList, "c.txt".toList] =
      ["d/a.sql".toList] := by
  refine ⟨List.sorted_insertionSort lexR _, List.perm_insertionSort lexR _, ?_, by decide, by decide⟩
  intro p
  simp only [get_sql_files, List.mem_insertionSort, List.mem_map, List.mem_filter]
  constructor
  · rintro ⟨f, ⟨hf, hsql⟩, rfl⟩
    exact ⟨f, hf, hsql, rfl⟩
  · rintro ⟨f, hf, hsql, rfl⟩
    exact ⟨f, ⟨hf, hsql⟩, rfl⟩

/-- Witness for C2 at a concrete directory listing. -/
theorem discovery_C2_witness :
    List.Sorted lexR (get_sql_files "d".toList ["b.sql".toList, "a.sql".toList]) :=
  (discovery_C2 "d".toList ["b.sql".toList, "a.sql".toList]).1

/-- C10: sorting the joined paths (what the code does) coincides with
sorting the entry names and then joining (the per-name reading of the
spec), for any entries that are genuine directory entry names (an entry
returned by `os.listdir` never starts with `/`). -/
theorem discovery_order_C10 (directory : List Char) (entries : List (List Char))
    (h : ∀ f ∈ entries, f.head? ≠ some '/') :
    get_sql_files directory entries = getSqlFilesSpec directory entries := by
  unfold get_sql_files getSqlFilesSpec
  have hmem : ∀ f ∈ entries.filter (fun f => pyEndsWith f ".sql".toList),
      f.head? ≠ some '/' := fun f hf => h f (List.mem_filter.mp hf).1
  have h1 : (entries.filter (fun f => pyEndsWith f ".sql".toList)).map (pathJoin directory) =
      (entries.filter (fun f => pyEndsWith f ".sql".toList)).map
        (fun f => joinedDirPart directory ++ f) :=
    List.map_congr_left fun f hf => pathJoin_eq_append _ _ (hmem f hf)
  rw [h1, ← List.map_insertionSort lexR lexR (fun f => joinedDirPart directory ++ f) _ ?_]
  · refine List.map_congr_left fun f hf => ?_
    exact (pathJoin_eq_append _ _ (hmem f ((List.mem_insertionSort lexR).mp hf))).symm
  · intro a _ b _
    simp [lexR, lexLe_append_left]

/-- Witness for C10 at a concrete directory listing. -/
theorem discovery_order_C10_witness :
    get_sql_files "d".toList ["b.sql".toList, "a.sql".toList, "x.txt".toList] =
      getSqlFilesSpec "d".toList ["b.sql".toList, "a.sql".toList, "x.txt".toList] :=
  discovery_order_C10 "d".toList _ (by decide)

theorem runStmts_events {σ} (db : DBEnv σ) :
    ∀ (l : List (List Char)) (s : σ) (e : Ev), e ∈ (runStmts db s l).1 →
      (∃ st, e = .execStmt st) ∨ (∃ r, e = .fetch r) ∨ (∃ r, e = .logRow r) := by
  intro l
  induction l with
  | nil => intro s e he; simp [runStmts] at he
  | cons st rest ih =>
    intro s e he
    by_cases hst : st.isEmpty
    · rw [runStmts, if_pos hst] at he
      exact ih s e he
    · rw [runStmts, if_neg hst] at he
      rcases hex : db.execStmt s st with err | p
      · rw [hex] at he
        simp only [List.mem_singleton] at he
        exact Or.inl ⟨st, he⟩
      · obtain ⟨s', rows⟩ := p
        rw [hex] at he
        simp only [List.cons_append, List.mem_cons, List.mem_append] at he
        rcases he with rfl | he
        · exact Or.inl ⟨st, rfl⟩
        rcases he with he | he
        · split at he
          · simp only [List.mem_cons, List.mem_map] at he
            rcases he with rfl | ⟨r, -, rfl⟩
            · exact Or.inr (Or.inl ⟨rows, rfl⟩)
            · exact Or.inr (Or.inr ⟨r, rfl⟩)
          · simp at he
        · exact ih s' e he

theorem commit_not_mem_runStmts {σ} (db : DBEnv σ) (s : σ) (l : List (List Char)) :
    Ev.commit ∉ (runStmts db s l).1 := by
  intro h
  rcases runStmts_events db l s _ h with ⟨st, h'⟩ | ⟨r, h'⟩ | ⟨r, h'⟩ <;> cases h'

theorem readsOf_runStmts {σ} (db : DBEnv σ) (s : σ) (l : List (List Char)) :
    readsOf (runStmts db s l).1 = [] := by
  rw [readsOf, List.filterMap_eq_nil_iff]
  intro e he
  rcases runStmts_events db l s _ he with ⟨st, rfl⟩ | ⟨r, rfl⟩ | ⟨r, rfl⟩ <;> rfl

theorem execCallsOf_runStmts {σ} (db : DBEnv σ) (s : σ) (l : List (List Char)) :
    execCallsOf (runStmts db s l).1 = [] := by
  rw [execCallsOf, List.filterMap_eq_nil_iff]
  intro e he
  rcases runStmts_events db l s _ he with ⟨st, rfl⟩ | ⟨r, rfl⟩ | ⟨r, rfl⟩ <;> rfl

theorem execStmtsOf_append (t1 t2 : List Ev) :
    execStmtsOf (t1 ++ t2) = execStmtsOf t1 ++ execStmtsOf t2 :=
  List.filterMap_append t1 t2 _

theorem execStmtsOf_selectPart (b : Bool) (rows : List (List Char)) :
    execStmtsOf (if b then Ev.fetch rows :: rows.map Ev.logRow else []) = [] := by
  cases b
  · rfl
  · simp only [if_pos]
    show execStmtsOf (rows.map Ev.logRow) = []
    rw [execStmtsOf, List.filterMap_eq_nil_iff]
    intro e he
    rcases List.mem_map.mp he with ⟨r, -, rfl⟩
    rfl

theorem execStmtsOf_runStmts_ok {σ} (db : DBEnv σ) :
    ∀ (l : List (List Char)) (s : σ) (evs : List Ev) (s1 : σ),
      runStmts db s l = (evs, .ok s1) → execStmtsOf evs = l.filter (fun st => !st.isEmpty) := by
  intro l
  induction l with
  | nil =>
    intro s evs s1 h
    simp only [runStmts, Prod.mk.injEq] at h
    rw [← h.1]
    rfl
  | cons st rest ih =>
    intro s evs s1 h
    by_cases hst : st.isEmpty
    · rw [runStmts, if_pos hst] at h
      rw [List.filter_cons_of_neg (by simp [hst])]
      exact ih s evs s1 h
    · rw [runStmts, if_neg hst] at h
      rcases hex : db.execStmt s st with err | p
      · rw [hex] at h
        simp at h
      · obtain ⟨s', rows⟩ := p
        rw [hex] at h
        simp only [Prod.mk.injEq] at h
        rw [← h.1, List.filter_cons_of_pos (by simp [hst]), List.cons_append]
        have hrec := ih s' (runStmts db s' rest).1 s1 (by rw [← h.2])
        have e1 : execStmtsOf (Ev.execStmt st ::
            ((if isSelectStmt st then Ev.fetch rows :: rows.map Ev.logRow else []) ++
              (runStmts db s' rest).1)) =
            st :: execStmtsOf
              ((if isSelectStmt st then Ev.fetch rows :: rows.map Ev.logRow else []) ++
                (runStmts db s' rest).1) := rfl
        rw [e1, execStmtsOf_append, execStmtsOf_selectPart, List.nil_append, hrec]

theorem runStmts_append_ok {σ} (db : DBEnv σ) :
    ∀ (l1 : List (List Char)) (s : σ) (evs : List Ev) (s1 : σ),
      runStmts db s l1 = (evs, .ok s1) → ∀ l2 : List (List Char),
      runStmts db s (l1 ++ l2) =
        (evs ++ (runStmts db s1 l2).1, (runStmts db s1 l2).2) := by
  intro l1
  induction l1 with
  | nil =>
    intro s evs s1 h l2
    simp only [runStmts, Prod.mk.injEq, Except.ok.injEq] at h
    obtain ⟨h1, h2⟩ := h
    subst h2
    rw [← h1]
    simp
  | cons st rest ih =>
    intro s evs s1 h l2
    by_cases hst : st.isEmpty
    · rw [runStmts, if_pos hst] at h
      rw [List.cons_append, runStmts, if_pos hst]
      exact ih s evs s1 h l2
    · rw [runStmts, if_neg hst] at h
      rw [List.cons_append, runStmts, if_neg hst]
      rcases hex : db.execStmt s st with e | p
      · rw [hex] at h
        simp at h
      · obtain ⟨s', rows⟩ := p
        rw [hex] at h
        simp only [Prod.mk.injEq] at h
        obtain ⟨h1, h2⟩ := h
        dsimp only
        rw [ih s' (runStmts db s' rest).1 s1 (by rw [← h2]) l2, ← h1]
        simp [List.append_assoc]

theorem execute_query_connect_error {σ} (db : DBEnv σ) (q n e : List Char)
    (hc : db.connect = .error e) :
    execute_query db q n = ([Ev.execCall n, Ev.connect, Ev.logErrorExec n e], false) := by
  unfold execute_query
  rw [hc]

theorem execute_query_run_error {σ} (db : DBEnv σ) (q n : List Char) (s0 : σ)
    (evs : List Ev) (e : List Char) (hc : db.connect = .ok s0)
    (hr : runStmts db s0 (splitStatements q) = (evs, .error e)) :
    execute_query db q n =
      (Ev.execCall n :: Ev.connect :: Ev.logExecuting n :: evs ++ [Ev.logErrorExec n e],
        false) := by
  unfold execute_query
  rw [hc]
  dsimp only
  rw [hr]

theorem execute_query_commit_error {σ} (db : DBEnv σ) (q n : List Char) (s0 sEnd : σ)
    (evs : List Ev) (e : List Char) (hc : db.connect = .ok s0)
    (hr : runStmts db s0 (splitStatements q) = (evs, .ok sEnd))
    (hm : db.commit sEnd = .error e) :
    execute_query db q n =
      (Ev.execCall n :: Ev.connect :: Ev.logExecuting n ::
        evs ++ [Ev.commit, Ev.logErrorExec n e], false) := by
  unfold execute_query
  rw [hc]
  dsimp only
  rw [hr]
  dsimp only
  rw [hm]

theorem execute_query_ok {σ} (db : DBEnv σ) (q n : List Char) (s0 sEnd sc : σ)
    (evs : List Ev) (hc : db.connect = .ok s0)
    (hr : runStmts db s0 (splitStatements q) = (evs, .ok sEnd))
    (hm : db.commit sEnd = .ok sc) :
    execute_query db q n =
      (Ev.execCall n :: Ev.connect :: Ev.logExecuting n ::
        evs ++ [Ev.commit, Ev.logSuccess n], true) := by
  unfold execute_query
  rw [hc]
  dsimp only
  rw [hr]
  dsimp only
  rw [hm]

/-- C4: `execute_query` returns `true` exactly when the connection opened,
every statement ran without error, and the commit succeeded; whenever it
returns `false` — including on a connection failure, which the same broad
handler catches — an error was logged with the file name, and the result is
an ordinary boolean, never a propagated exception (structurally: the
embedding is a total function into `List Ev × Bool`). -/
theorem executor_C4 {σ} (db : DBEnv σ) (q n : List Char) :
    ((execute_query db q n).2 = true ↔
      ∃ s0 sEnd sc, db.connect = .ok s0 ∧
        (runStmts db s0 (splitStatements q)).2 = .ok sEnd ∧ db.commit sEnd = .ok sc) ∧
    ((execute_query db q n).2 = false →
      ∃ e, Ev.logErrorExec n e ∈ (execute_query db q n).1) := by
  rcases hc : db.connect with e | s0
  · rw [execute_query_connect_error db q n e hc]
    refine ⟨⟨fun h => by simp at h, ?_⟩, fun _ => ⟨e, by simp⟩⟩
    rintro ⟨s0, sEnd, sc, hc', -, -⟩
    cases hc'
  · rcases hr : runStmts db s0 (splitStatements q) with ⟨evs, r⟩
    rcases r with e | sEnd
    · rw [execute_query_run_error db q n s0 evs e hc hr]
      refine ⟨⟨fun h => by simp at h, ?_⟩, fun _ => ⟨e, by simp⟩⟩
      rintro ⟨s0', sEnd, sc, hc', hr', -⟩
      injection hc' with h0
      subst h0
      rw [hr] at hr'
      cases hr'
    · rcases hm : db.commit sEnd with e | sc
      · rw [execute_query_commit_error db q n s0 sEnd evs e hc hr hm]
        refine ⟨⟨fun h => by simp at h, ?_⟩, fun _ => ⟨e, by simp⟩⟩
        rintro ⟨s0', sEnd', sc, hc', hr', hm'⟩
        injection hc' with h0
        subst h0
        rw [hr] at hr'
        injection hr' with h1
        subst h1
        rw [hm] at hm'
        cases hm'
      · rw [execute_query_ok db q n s0 sEnd sc evs hc hr hm]
        exact ⟨⟨fun _ => ⟨s0, sEnd, sc, rfl, by rw [hr], hm⟩, fun _ => rfl⟩,
          fun h => by simp at h⟩

/-- Witness for C4: a connection failure is caught and logged, not
propagated. -/
theorem executor_C4_witness :
    ∃ e, Ev.logErrorExec "f.sql".toList e ∈
      (execute_query dbConnFail "SELECT 1".toList "f.sql".toList).1 :=
  (executor_C4 dbConnFail "SELECT 1".toList "f.sql".toList).2 (by decide)

/-- C7: after a successfully executed statement, the rows of a SELECT are
fetched and each row logged before any event of the remaining statements;
a non-SELECT statement contributes no fetch, and a statement list with no
SELECT produces no fetch event at all. -/
theorem executor_select_C7 {σ} (db : DBEnv σ) :
    (∀ (s s' : σ) (st : List Char) (rest rows : List (List Char)),
      st ≠ [] → db.execStmt s st = .ok (s', rows) →
      (runStmts db s (st :: rest)).1 =
        (Ev.execStmt st :: selectBlock st rows) ++ (runStmts db s' rest).1 ∧
      (isSelectStmt st = true →
        selectBlock st rows = Ev.fetch rows :: rows.map Ev.logRow) ∧
      (isSelectStmt st = false → selectBlock st rows = [])) ∧
    (∀ (s : σ) (stmts : List (List Char)),
      (∀ st ∈ stmts, isSelectStmt st = false) →
      ∀ rows, Ev.fetch rows ∉ (runStmts db s stmts).1) := by
  constructor
  · intro s s' st rest rows hne hex
    have hstE : st.isEmpty = false := by
      cases st with
      | nil => exact absurd rfl hne
      | cons a t => rfl
    refine ⟨?_, fun hsel => by rw [selectBlock, if_pos hsel],
      fun hsel => by rw [selectBlock, if_neg (by simp [hsel])]⟩
    rw [runStmts, if_neg (by simp [hstE]), hex]
    rfl
  · intro s stmts
    induction stmts generalizing s with
    | nil =>
      intro h rows hmem
      simp [runStmts] at hmem
    | cons st rest ih =>
      intro h rows hmem
      by_cases hst : st.isEmpty
      · rw [runStmts, if_pos hst] at hmem
        exact ih s (fun a ha => h a (List.mem_cons_of_mem st ha)) rows hmem
      · rcases hex : db.execStmt s st with e | p
        · rw [runStmts, if_neg hst, hex] at hmem
          simp at hmem
        · obtain ⟨s', rows'⟩ := p
          rw [runStmts, if_neg hst, hex] at hmem
          dsimp only at hmem
          rw [if_neg (by simp [h st (List.mem_cons_self st rest)])] at hmem
          simp only [List.cons_append, List.nil_append, List.mem_cons] at hmem
          rcases hmem with h' | hmem
          · cases h'
          · exact ih s' (fun a ha => h a (List.mem_cons_of_mem st ha)) rows hmem

/-- Witness for C7: a concrete SELECT statement's rows are fetched and
logged before the rest of the file runs. -/
theorem executor_select_C7_witness :
    (runStmts dbOk () ["SELECT 1".toList]).1 =
      (Ev.execStmt "SELECT 1".toList ::
        selectBlock "SELECT 1".toList ["row1".toList]) ++ (runStmts dbOk () []).1 :=
  ((executor_select_C7 dbOk).1 () () "SELECT 1".toList [] ["row1".toList]
    (by decide) rfl).1

theorem splitAux_mem_mem (c : Char) :
    ∀ (l acc f : List Char), f ∈ splitAux c l acc → ∀ x ∈ f, x ∈ acc ∨ x ∈ l := by
  intro l
  induction l with
  | nil =>
    intro acc f hf x hx
    simp only [splitAux, List.mem_singleton] at hf
    subst hf
    exact Or.inl (by simpa using hx)
  | cons y ys ih =>
    intro acc f hf x hx
    simp only [splitAux] at hf
    split at hf
    · rcases List.mem_cons.mp hf with rfl | hf
      · exact Or.inl (by simpa using hx)
      · rcases ih [] f hf x hx with h | h
        · simp at h
        · exact Or.inr (List.mem_cons_of_mem y h)
    · rcases ih (y :: acc) f hf x hx with h | h
      · rcases List.mem_cons.mp h with rfl | h
        · exact Or.inr (List.mem_cons_self x ys)
        · exact Or.inl h
      · exact Or.inr (List.mem_cons_of_mem y h)

/-- Every character of a fragment comes from the split input. -/
theorem splitOnChar_mem_mem (c : Char) (l f : List Char) (hf : f ∈ splitOnChar c l) :
    ∀ x ∈ f, x ∈ l := by
  intro x hx
  rcases splitAux_mem_mem c l [] f hf x hx with h | h
  · simp at h
  · exact h

theorem pyStrip_eq_nil_of_all_space (f : List Char)
    (h : ∀ x ∈ f, pyIsSpace x = true) : pyStrip f = [] := by
  unfold pyStrip
  rw [List.dropWhile_eq_nil_iff.mpr h]
  rfl

/-- A text of only whitespace and semicolons splits into zero statements. -/
theorem splitStatements_eq_nil_of_space_semi (q : List Char)
    (hq : ∀ c ∈ q, pyIsSpace c = true ∨ c = ';') : splitStatements q = [] := by
  unfold splitStatements
  rw [show (splitOnChar ';' q).filter (fun stmt => !(pyStrip stmt).isEmpty) = [] from ?_]
  · rfl
  · rw [List.filter_eq_nil_iff]
    intro f hf
    have hstrip : pyStrip f = [] := by
      apply pyStrip_eq_nil_of_all_space
      intro x hx
      rcases hq x (splitOnChar_mem_mem ';' q f hf x hx) with h | h
      · exact h
      · exact absurd (h ▸ hx) (splitOnChar_not_mem ';' q f hf)
    simp [hstrip]

/-- C8: every text of only whitespace and semicolons splits into zero
statements, and executing such a file runs no statement, still issues the
commit, and returns `true` (given that connecting and committing, the only
database calls left, succeed); in particular the spec's example `";  ; ;"`
splits into zero statements. -/
theorem executor_empty_C8 {σ} (db : DBEnv σ) (n q : List Char) (s0 s1 : σ)
    (hq : ∀ c ∈ q, pyIsSpace c = true ∨ c = ';')
    (hc : db.connect = .ok s0) (hm : db.commit s0 = .ok s1) :
    splitStatements q = [] ∧
    execute_query db q n =
      ([Ev.execCall n, Ev.connect, Ev.logExecuting n, Ev.commit, Ev.logSuccess n],
        true) ∧
    splitStatements ";  ; ;".toList = [] := by
  have hs : splitStatements q = [] := splitStatements_eq_nil_of_space_semi q hq
  refine ⟨hs, ?_, by decide⟩
  have hr : runStmts db s0 (splitStatements q) = ([], .ok s0) := by
    rw [hs]
    rfl
  exact execute_query_ok db q n s0 s0 s1 [] hc hr hm

/-- Witness for C8 on a concrete database client, at the spec's example
text. -/
theorem executor_empty_C8_witness :
    execute_query dbOk ";  ; ;".toList "empty.sql".toList =
      ([Ev.execCall "empty.sql".toList, Ev.connect, Ev.logExecuting "empty.sql".toList,
        Ev.commit, Ev.logSuccess "empty.sql".toList], true) :=
  (executor_empty_C8 dbOk "empty.sql".toList ";  ; ;".toList () ()
    (by decide) rfl rfl).2.1

/-- C9: if a statement of the file raises, the trace of the file ends at
that statement: no later statement of the file runs, `commit` is never
invoked, and the executed statements are exactly the ones through the
failing one. -/
theorem executor_fail_C9 {σ} (db : DBEnv σ) (q n : List Char) (s0 sMid : σ)
    (l1 : List (List Char)) (st : List Char) (l2 : List (List Char)) (evs : List Ev)
    (e : List Char)
    (hsplit : splitStatements q = l1 ++ st :: l2)
    (hc : db.connect = .ok s0)
    (h1 : runStmts db s0 l1 = (evs, .ok sMid))
    (hf : db.execStmt sMid st = .error e) :
    execute_query db q n =
      (Ev.execCall n :: Ev.connect :: Ev.logExecuting n ::
        (evs ++ [Ev.execStmt st]) ++ [Ev.logErrorExec n e], false) ∧
    Ev.commit ∉ (execute_query db q n).1 ∧
    execStmtsOf (execute_query db q n).1 = l1 ++ [st] := by
  have hstne : st ≠ [] := mem_splitStatements_ne_nil q st (by rw [hsplit]; simp)
  have hstE : st.isEmpty = false := by
    cases st with
    | nil => exact absurd rfl hstne
    | cons a t => rfl
  have hrun : runStmts db s0 (splitStatements q) = (evs ++ [Ev.execStmt st], .error e) := by
    rw [hsplit, runStmts_append_ok db l1 s0 evs sMid h1 (st :: l2)]
    rw [runStmts, if_neg (by simp [hstE]), hf]
  have hq := execute_query_run_error db q n s0 (evs ++ [Ev.execStmt st]) e hc hrun
  have hevs : Ev.commit ∉ evs := by
    have hev : evs = (runStmts db s0 l1).1 := by rw [h1]
    rw [hev]
    exact commit_not_mem_runStmts db s0 l1
  refine ⟨hq, ?_, ?_⟩
  · rw [hq]
    simp [hevs]
  · rw [hq]
    show execStmtsOf ((evs ++ [Ev.execStmt st]) ++ [Ev.logErrorExec n e]) = l1 ++ [st]
    rw [execStmtsOf_append, execStmtsOf_append]
    have hl1 : execStmtsOf evs = l1 := by
      rw [execStmtsOf_runStmts_ok db l1 s0 evs sMid h1]
      rw [List.filter_eq_self]
      intro a ha
      have hmem : a ∈ splitStatements q := by
        rw [hsplit]
        exact List.mem_append_left _ ha
      have hne := mem_splitStatements_ne_nil q a hmem
      cases a with
      | nil => exact absurd rfl hne
      | cons x t => rfl
    rw [hl1]
    show (l1 ++ [st]) ++ ([] : List (List Char)) = l1 ++ [st]
    exact List.append_nil _

/-- Witness for C9: in a three-statement file whose second statement
raises, only the first two statements are executed. -/
theorem executor_fail_C9_witness :
    execStmtsOf (execute_query dbFailOnBad "GOOD; BAD; NEVER".toList "f.sql".toList).1 =
      ["GOOD".toList, "BAD".toList] :=
  (executor_fail_C9 dbFailOnBad "GOOD; BAD; NEVER".toList "f.sql".toList () ()
    ["GOOD".toList] "BAD".toList ["NEVER".toList] [Ev.execStmt "GOOD".toList]
    "syntax error".toList (by decide) rfl rfl rfl).2.2


theorem read_query_from_file_error {σ} (w : World σ) (p e : List Char)
    (h : w.read p = .error e) :
    read_query_from_file w p = ([Ev.readFile p, Ev.logErrorRead p e], .error e) := by
  unfold read_query_from_file
  rw [h]

theorem read_query_from_file_ok {σ} (w : World σ) (p s : List Char)
    (h : w.read p = .ok s) :
    read_query_from_file w p = ([Ev.readFile p], .ok s) := by
  unfold read_query_from_file
  rw [h]

/-- C6: the query loader returns the file's full text as-is; on any I/O
error it logs the path and message and re-raises the very same error. -/
theorem reader_C6 {σ} (w : World σ) (p : List Char) :
    (∀ e, w.read p = .error e →
      read_query_from_file w p = ([Ev.readFile p, Ev.logErrorRead p e], .error e)) ∧
    (∀ s, w.read p = .ok s → read_query_from_file w p = ([Ev.readFile p], .ok s)) :=
  ⟨fun e h => read_query_from_file_error w p e h,
    fun s h => read_query_from_file_ok w p s h⟩

/-- Witness for C6: a failing read is logged and the same error returned. -/
theorem reader_C6_witness :
    read_query_from_file wReadFail "f.sql".toList =
      ([Ev.readFile "f.sql".toList,
        Ev.logErrorRead "f.sql".toList "permission denied".toList],
        .error "permission denied".toList) :=
  (reader_C6 wReadFail "f.sql".toList).1 "permission denied".toList rfl

/-- C5: with no `.sql` entry in the directory, the orchestrator only logs
the warning and returns normally (exit status 0, modelled by `none`), and
no database connection is ever attempted. -/
theorem orchestrator_empty_C5 {σ} (w : World σ) (directory : List Char)
    (entries : List (List Char))
    (h : ∀ f ∈ entries, pyEndsWith f ".sql".toList = false) :
    run_all_queries w directory entries = ([Ev.logWarnNoFiles], none) ∧
    Ev.connect ∉ (run_all_queries w directory entries).1 := by
  have hf : entries.filter (fun f => pyEndsWith f ".sql".toList) = [] := by
    rw [List.filter_eq_nil_iff]
    intro a ha
    simpa using h a ha
  have hg : get_sql_files directory entries = [] := by
    rw [get_sql_files, hf]
    rfl
  have he : run_all_queries w directory entries = ([Ev.logWarnNoFiles], none) := by
    unfold run_all_queries
    dsimp only
    rw [hg]
    rfl
  exact ⟨he, by rw [he]; simp⟩

/-- Witness for C5 on a directory with a single non-SQL file. -/
theorem orchestrator_empty_C5_witness :
    run_all_queries wBatch "d".toList ["a.txt".toList] = ([Ev.logWarnNoFiles], none) :=
  (orchestrator_empty_C5 wBatch "d".toList ["a.txt".toList] (by decide)).1

theorem readsOf_append (t1 t2 : List Ev) :
    readsOf (t1 ++ t2) = readsOf t1 ++ readsOf t2 :=
  List.filterMap_append t1 t2 _

theorem execCallsOf_append (t1 t2 : List Ev) :
    execCallsOf (t1 ++ t2) = execCallsOf t1 ++ execCallsOf t2 :=
  List.filterMap_append t1 t2 _

theorem readsOf_execute_query {σ} (db : DBEnv σ) (q n : List Char) :
    readsOf (execute_query db q n).1 = [] := by
  rcases hc : db.connect with e | s0
  · rw [execute_query_connect_error db q n e hc]
    rfl
  · rcases hr : runStmts db s0 (splitStatements q) with ⟨evs, r⟩
    have hevs : readsOf evs = [] := by
      have h' : evs = (runStmts db s0 (splitStatements q)).1 := by rw [hr]
      rw [h']
      exact readsOf_runStmts db s0 _
    rcases r with e | sEnd
    · rw [execute_query_run_error db q n s0 evs e hc hr]
      show readsOf (evs ++ [Ev.logErrorExec n e]) = []
      rw [readsOf_append, hevs]
      rfl
    · rcases hm : db.commit sEnd with e | sc
      · rw [execute_query_commit_error db q n s0 sEnd evs e hc hr hm]
        show readsOf (evs ++ [Ev.commit, Ev.logErrorExec n e]) = []
        rw [readsOf_append, hevs]
        rfl
      · rw [execute_query_ok db q n s0 sEnd sc evs hc hr hm]
        show readsOf (evs ++ [Ev.commit, Ev.logSuccess n]) = []
        rw [readsOf_append, hevs]
        rfl

theorem execCallsOf_execute_query {σ} (db : DBEnv σ) (q n : List Char) :
    execCallsOf (execute_query db q n).1 = [n] := by
  rcases hc : db.connect with e | s0
  · rw [execute_query_connect_error db q n e hc]
    rfl
  · rcases hr : runStmts db s0 (splitStatements q) with ⟨evs, r⟩
    have hevs : execCallsOf evs = [] := by
      have h' : evs = (runStmts db s0 (splitStatements q)).1 := by rw [hr]
      rw [h']
      exact execCallsOf_runStmts db s0 _
    rcases r with e | sEnd
    · rw [execute_query_run_error db q n s0 evs e hc hr]
      show n :: execCallsOf (evs ++ [Ev.logErrorExec n e]) = [n]
      rw [execCallsOf_append, hevs]
      rfl
    · rcases hm : db.commit sEnd with e | sc
      · rw [execute_query_commit_error db q n s0 sEnd evs e hc hr hm]
        show n :: execCallsOf (evs ++ [Ev.commit, Ev.logErrorExec n e]) = [n]
        rw [execCallsOf_append, hevs]
        rfl
      · rw [execute_query_ok db q n s0 sEnd sc evs hc hr hm]
        show n :: execCallsOf (evs ++ [Ev.commit, Ev.logSuccess n]) = [n]
        rw [execCallsOf_append, hevs]
        rfl

theorem runFiles_cons_ok {σ} (w : World σ) (f q : List Char) (rest : List (List Char))
    (hr : w.read f = .ok q) (hx : (execute_query w.db q (basename f)).2 = true) :
    runFiles w (f :: rest) =
      ((Ev.readFile f :: (execute_query w.db q (basename f)).1) ++ (runFiles w rest).1,
        (runFiles w rest).2) := by
  rw [runFiles, read_query_from_file_ok w f q hr]
  dsimp only
  rw [if_pos hx]
  rfl

theorem runFiles_cons_read_error {σ} (w : World σ) (f e : List Char)
    (rest : List (List Char)) (hr : w.read f = .error e) :
    runFiles w (f :: rest) =
      ([Ev.readFile f, Ev.logErrorRead f e, Ev.logErrorFatal f e], some 1) := by
  rw [runFiles, read_query_from_file_error w f e hr]
  rfl

theorem runFiles_cons_exec_fail {σ} (w : World σ) (f q : List Char)
    (rest : List (List Char)) (hr : w.read f = .ok q)
    (hx : (execute_query w.db q (basename f)).2 = false) :
    runFiles w (f :: rest) =
      ((Ev.readFile f :: (execute_query w.db q (basename f)).1) ++ [Ev.logErrorStop f],
        some 1) := by
  rw [runFiles, read_query_from_file_ok w f q hr]
  dsimp only
  rw [if_neg (by simp [hx])]
  rfl

theorem runFiles_ok_components {σ} (w : World σ) :
    ∀ (l1 rest : List (List Char)), (∀ f ∈ l1, fileOk w f) →
      readsOf (runFiles w (l1 ++ rest)).1 = l1 ++ readsOf (runFiles w rest).1 ∧
      execCallsOf (runFiles w (l1 ++ rest)).1 =
        l1.map basename ++ execCallsOf (runFiles w rest).1 ∧
      (runFiles w (l1 ++ rest)).2 = (runFiles w rest).2 := by
  intro l1
  induction l1 with
  | nil =>
    intro rest h
    simp
  | cons f l1 ih =>
    intro rest h
    obtain ⟨q, hr, hx⟩ := h f (List.mem_cons_self f l1)
    have ihh := ih rest (fun a ha => h a (List.mem_cons_of_mem f ha))
    rw [List.cons_append, runFiles_cons_ok w f q (l1 ++ rest) hr hx]
    dsimp only
    refine ⟨?_, ?_, ihh.2.2⟩
    · rw [readsOf_append,
        show readsOf (Ev.readFile f :: (execute_query w.db q (basename f)).1) =
          f :: readsOf (execute_query w.db q (basename f)).1 from rfl,
        readsOf_execute_query, ihh.1]
      simp
    · rw [execCallsOf_append,
        show execCallsOf (Ev.readFile f :: (execute_query w.db q (basename f)).1) =
          execCallsOf (execute_query w.db q (basename f)).1 from rfl,
        execCallsOf_execute_query, ihh.2.1]
      simp

/-- C1: in a batch over the sorted file list, if every file before `fi`
succeeds and `fi` fails to load or its execution reports failure, the
process exits with status 1, the files read are exactly those through
`fi`, and the files executed are those through `fi` at most (without `fi`
itself exactly when its read failed) — in particular nothing after `fi`
is ever read or executed. -/
theorem orchestrator_halt_C1 {σ} (w : World σ) (directory : List Char)
    (entries : List (List Char)) (l1 : List (List Char)) (fi : List Char)
    (l2 : List (List Char))
    (hfiles : get_sql_files directory entries = l1 ++ fi :: l2)
    (hok : ∀ f ∈ l1, fileOk w f)
    (hfail : (∃ e, w.read fi = .error e) ∨
      (∃ q, w.read fi = .ok q ∧ (execute_query w.db q (basename fi)).2 = false)) :
    (run_all_queries w directory entries).2 = some 1 ∧
    readsOf (run_all_queries w directory entries).1 = l1 ++ [fi] ∧
    (execCallsOf (run_all_queries w directory entries).1 = l1.map basename ∨
      execCallsOf (run_all_queries w directory entries).1 = (l1 ++ [fi]).map basename) := by
  have hne : (get_sql_files directory entries).isEmpty = false := by
    rw [hfiles]
    rcases l1 with - | ⟨a, t⟩ <;> rfl
  have hrun : run_all_queries w directory entries =
      (Ev.logFoundCount (get_sql_files directory entries).length ::
        (runFiles w (get_sql_files directory entries)).1,
        (runFiles w (get_sql_files directory entries)).2) := by
    unfold run_all_queries
    dsimp only
    rw [if_neg (by simp [hne])]
  have hcomp := runFiles_ok_components w l1 (fi :: l2) hok
  rw [hfiles] at hrun
  rcases hfail with ⟨e, hre⟩ | ⟨q, hrq, hx⟩
  · have htail := runFiles_cons_read_error w fi e l2 hre
    refine ⟨?_, ?_, Or.inl ?_⟩
    · rw [hrun]
      dsimp only
      rw [hcomp.2.2, htail]
    · rw [hrun]
      show readsOf (runFiles w (l1 ++ fi :: l2)).1 = l1 ++ [fi]
      rw [hcomp.1, htail]
      rfl
    · rw [hrun]
      show execCallsOf (runFiles w (l1 ++ fi :: l2)).1 = l1.map basename
      rw [hcomp.2.1, htail]
      show l1.map basename ++ [] = l1.map basename
      exact List.append_nil _
  · have htail := runFiles_cons_exec_fail w fi q l2 hrq hx
    have hreadsTail : readsOf (runFiles w (fi :: l2)).1 = [fi] := by
      rw [htail]
      dsimp only
      rw [readsOf_append,
        show readsOf (Ev.readFile fi :: (execute_query w.db q (basename fi)).1) =
          fi :: readsOf (execute_query w.db q (basename fi)).1 from rfl,
        readsOf_execute_query]
      rfl
    have hcallsTail : execCallsOf (runFiles w (fi :: l2)).1 = [basename fi] := by
      rw [htail]
      dsimp only
      rw [execCallsOf_append,
        show execCallsOf (Ev.readFile fi :: (execute_query w.db q (basename fi)).1) =
          execCallsOf (execute_query w.db q (basename fi)).1 from rfl,
        execCallsOf_execute_query]
      rfl
    refine ⟨?_, ?_, Or.inr ?_⟩
    · rw [hrun]
      dsimp only
      rw [hcomp.2.2, htail]
    · rw [hrun]
      show readsOf (runFiles w (l1 ++ fi :: l2)).1 = l1 ++ [fi]
      rw [hcomp.1, hreadsTail]
    · rw [hrun]
      show execCallsOf (runFiles w (l1 ++ fi :: l2)).1 = (l1 ++ [fi]).map basename
      rw [hcomp.2.1, hcallsTail]
      simp

/-- Witness for C1: the spec's three-file batch in which the second file
fails execution; the third file is never read, and the process exits with
status 1. -/
theorem orchestrator_halt_C1_witness :
    (run_all_queries wBatch "d".toList
      ["a.sql".toList, "b.sql".toList, "c.sql".toList]).2 = some 1 ∧
    readsOf (run_all_queries wBatch "d".toList
      ["a.sql".toList, "b.sql".toList, "c.sql".toList]).1 =
      ["d/a.sql".toList, "d/b.sql".toList] := by
  have h := orchestrator_halt_C1 wBatch "d".toList
    ["a.sql".toList, "b.sql".toList, "c.sql".toList]
    ["d/a.sql".toList] "d/b.sql".toList ["d/c.sql".toList]
    (by decide)
    (by
      intro f hf
      have hf' : f = "d/a.sql".toList := by simpa using hf
      subst hf'
      exact ⟨"OK".toList, rfl, rfl⟩)
    (Or.inr ⟨"BAD".toList, rfl, rfl⟩)
  exact ⟨h.1, h.2.1⟩
